import Mathlib

/-!
Verification development for the basalt-headers Sophus utilities
(`include/basalt/utils/sophus_utils.hpp`) and the camera round-trip law
exercised by `test/src/test_camera.cpp`.

The C++ code is a family of closed-form numeric kernels over a floating
point scalar; here it is embedded shallowly over the real numbers `ℝ`:
each C++ function becomes a Lean function with the same branch structure
and the same arithmetic operations, 3-vectors are `Fin 3 → ℝ`, 3x3
matrices are Mathlib matrices over `ℝ`.  The external Sophus / Eigen
rotation primitives (`SO3::exp`, `SO3::log`, `SO3::hat`, quaternion to
rotation-matrix conversion), which the spec declares as an external
rotation-group primitive, are modelled by their exact mathematical
definitions on unit quaternions.
-/

noncomputable section

namespace SophusModel

abbrev Vec3 := Fin 3 → ℝ

abbrev Vec6 := Fin 6 → ℝ

abbrev Mat3 := Matrix (Fin 3) (Fin 3) ℝ

abbrev Mat6 := Matrix (Fin 6) (Fin 6) ℝ

/-- The shared Sophus constant `Sophus::Constants<double>::epsilon() = 1e-10`
used by every epsilon-gated branch in `sophus_utils.hpp`. -/
def sophusEps : ℝ := 1e-10

/-- Eigen `phi.squaredNorm()` for a 3-vector. -/
def squaredNorm3 (v : Vec3) : ℝ := v 0 ^ 2 + v 1 ^ 2 + v 2 ^ 2

/-- Eigen `phi.norm()`; in the source always computed as
`std::sqrt(phi.squaredNorm())`. -/
def norm3 (v : Vec3) : ℝ := Real.sqrt (squaredNorm3 v)

/-- Model of the external rotation-group primitive `Sophus::SO3::hat`
(spec section 2): the skew-symmetric cross-product matrix of a 3-vector. -/
def hat (v : Vec3) : Mat3 :=
  !![0, -v 2, v 1; v 2, 0, -v 0; -v 1, v 0, 0]

/-- A quaternion, the internal representation of a `Sophus::SO3` element:
scalar part `w` and vector part `v`. -/
@[ext]
structure Quat where
  w : ℝ
  v : Vec3

/-- Model of the external primitive `Sophus::SO3::exp` (spec section 2):
the unit quaternion `(cos(θ/2), sin(θ/2)·ω/θ)` with `θ = ‖ω‖`, and the
exact limit `(1, 0)` at `θ = 0`. -/
def SO3exp (omega : Vec3) : Quat :=
  if norm3 omega = 0 then ⟨1, 0⟩
  else ⟨Real.cos (norm3 omega / 2), (Real.sin (norm3 omega / 2) / norm3 omega) • omega⟩

/-- The half-angle used by the quaternion logarithm of `Sophus::SO3::log`
for `n ≥ 0`: `atan2(n, w)` for `w ≥ 0` and the wrapped
`atan2(-n, -w) = arctan(n/w)` for `w < 0`, so that the full angle
`2·atan2p n w` lies in the principal interval `(-π, π]`.  For `w ≠ 0` of
either sign this is `arctan(n/w)` (the source's `2·atan(n/w)` form), and
`π/2` at `w = 0`. -/
def atan2p (n w : ℝ) : ℝ :=
  if w = 0 then Real.pi / 2 else Real.arctan (n / w)

/-- Model of the external primitive `Sophus::SO3::log` (spec section 2):
the principal rotation-vector logarithm `θ/‖v‖ · v` of a unit quaternion
with `θ = 2·atan2p(‖v‖, w)`, wrapped to `|θ| ≤ π` (for `w < 0` Sophus
folds the wrap into `atan2(-‖v‖, -w)`), and the exact limit `0` at
`‖v‖ = 0`. -/
def SO3log (q : Quat) : Vec3 :=
  if norm3 q.v = 0 then 0
  else (2 * atan2p (norm3 q.v) q.w / norm3 q.v) • q.v

/-- Model of the external primitive `SO3::inverse` (spec section 2): the
conjugate quaternion. -/
def quatInv (q : Quat) : Quat := ⟨q.w, -q.v⟩

/-- Model of the external primitive `SO3::matrix` (spec section 2): the
rotation matrix of a unit quaternion (Eigen `toRotationMatrix`). -/
def quatToMatrix (q : Quat) : Mat3 :=
  !![1 - 2 * (q.v 1 ^ 2 + q.v 2 ^ 2), 2 * (q.v 0 * q.v 1 - q.v 2 * q.w),
       2 * (q.v 0 * q.v 2 + q.v 1 * q.w);
     2 * (q.v 0 * q.v 1 + q.v 2 * q.w), 1 - 2 * (q.v 0 ^ 2 + q.v 2 ^ 2),
       2 * (q.v 1 * q.v 2 - q.v 0 * q.w);
     2 * (q.v 0 * q.v 2 - q.v 1 * q.w), 2 * (q.v 1 * q.v 2 + q.v 0 * q.w),
       1 - 2 * (q.v 0 ^ 2 + q.v 1 ^ 2)]

/-- A unit quaternion: the invariant maintained by `Sophus::SO3`. -/
def unitQuat (q : Quat) : Prop := q.w ^ 2 + squaredNorm3 q.v = 1

/-- An `SE3` element as stored by Sophus: an `SO3` rotation (unit
quaternion) and a translation 3-vector. -/
abbrev SE3d := Quat × Vec3

/-- First three components of a 6-vector (Eigen `head<3>()`). -/
def head3 (u : Vec6) : Vec3 := ![u 0, u 1, u 2]

/-- Last three components of a 6-vector (Eigen `tail<3>()`). -/
def tail3 (u : Vec6) : Vec3 := ![u 3, u 4, u 5]

/-- Assembly of a 6-vector from its `head<3>()` and `tail<3>()` parts. -/
def vec6 (h t : Vec3) : Vec6 := ![h 0, h 1, h 2, t 0, t 1, t 2]

/-- Source `Sophus::logd`: decoupled SE(3) logarithm; the head is the
translation taken verbatim, the tail is the rotation logarithm. -/
def logd (se3 : SE3d) : Vec6 := vec6 se3.2 (SO3log se3.1)

/-- Source `Sophus::expd`: decoupled SE(3) exponential; the rotation is
`SO3::exp` of the tail, the translation is the head taken verbatim. -/
def expd (upsilon_omega : Vec6) : SE3d :=
  (SO3exp (tail3 upsilon_omega), head3 upsilon_omega)

/-- Source `Sophus::rightJacobianSO3`: `J` is set to the identity and, when
`epsilon < ‖phi‖`, updated by `J -= hat(phi)·(1-cos‖phi‖)/‖phi‖²` and
`J += hat(phi)²·(‖phi‖-sin‖phi‖)/‖phi‖³` (with `‖phi‖³ = ‖phi‖²·‖phi‖`). -/
def rightJacobianSO3 (phi : Vec3) : Mat3 :=
  if sophusEps < norm3 phi then
    1 - ((1 - Real.cos (norm3 phi)) / squaredNorm3 phi) • hat phi
      + ((norm3 phi - Real.sin (norm3 phi)) / (squaredNorm3 phi * norm3 phi)) •
          (hat phi * hat phi)
  else 1

/-- Source `Sophus::rightJacobianInvSO3`: `J` is set to the identity and,
when `epsilon < ‖phi‖`, updated by `J += hat(phi)/2` and
`J += hat(phi)²·(1/‖phi‖² - (1+cos‖phi‖)/(2‖phi‖·sin‖phi‖))`. -/
def rightJacobianInvSO3 (phi : Vec3) : Mat3 :=
  if sophusEps < norm3 phi then
    1 + ((1 : ℝ) / 2) • hat phi
      + (1 / squaredNorm3 phi
          - (1 + Real.cos (norm3 phi)) / (2 * norm3 phi * Real.sin (norm3 phi))) •
          (hat phi * hat phi)
  else 1

/-- Source `Sophus::leftJacobianSO3`: as `rightJacobianSO3` but with
`J += hat(phi)·(1-cos‖phi‖)/‖phi‖²` (flipped sign of the linear term). -/
def leftJacobianSO3 (phi : Vec3) : Mat3 :=
  if sophusEps < norm3 phi then
    1 + ((1 - Real.cos (norm3 phi)) / squaredNorm3 phi) • hat phi
      + ((norm3 phi - Real.sin (norm3 phi)) / (squaredNorm3 phi * norm3 phi)) •
          (hat phi * hat phi)
  else 1

/-- Source `Sophus::leftJacobianInvSO3`: as `rightJacobianInvSO3` but with
`J -= hat(phi)/2` (flipped sign of the linear term). -/
def leftJacobianInvSO3 (phi : Vec3) : Mat3 :=
  if sophusEps < norm3 phi then
    1 - ((1 : ℝ) / 2) • hat phi
      + (1 / squaredNorm3 phi
          - (1 + Real.cos (norm3 phi)) / (2 * norm3 phi * Real.sin (norm3 phi))) •
          (hat phi * hat phi)
  else 1

/-- Source `Sophus::rightJacobianSE3Decoupled`: `J` is zeroed, the
bottom-right 3x3 block receives `rightJacobianSO3(omega)` for
`omega = phi.tail<3>()`, and the top-left 3x3 block receives
`SO3::exp(omega).inverse().matrix()`. -/
def rightJacobianSE3Decoupled (phi : Vec6) : Mat6 :=
  Matrix.of fun i j =>
    if hi : (i : ℕ) < 3 then
      if hj : (j : ℕ) < 3 then
        quatToMatrix (quatInv (SO3exp (tail3 phi))) ⟨i, hi⟩ ⟨j, hj⟩
      else 0
    else
      if (j : ℕ) < 3 then 0
      else
        rightJacobianSO3 (tail3 phi) ⟨(i : ℕ) - 3, by have := i.isLt; omega⟩
          ⟨(j : ℕ) - 3, by have := j.isLt; omega⟩

/-- Source `Sophus::rightJacobianInvSE3Decoupled`: `J` is zeroed, the
bottom-right 3x3 block receives `rightJacobianInvSO3(omega)` for
`omega = phi.tail<3>()`, and the top-left 3x3 block receives
`SO3::exp(omega).matrix()` (not inverted). -/
def rightJacobianInvSE3Decoupled (phi : Vec6) : Mat6 :=
  Matrix.of fun i j =>
    if hi : (i : ℕ) < 3 then
      if hj : (j : ℕ) < 3 then
        quatToMatrix (SO3exp (tail3 phi)) ⟨i, hi⟩ ⟨j, hj⟩
      else 0
    else
      if (j : ℕ) < 3 then 0
      else
        rightJacobianInvSO3 (tail3 phi) ⟨(i : ℕ) - 3, by have := i.isLt; omega⟩
          ⟨(j : ℕ) - 3, by have := j.isLt; omega⟩

/-- Spec formula for `rightJacobianSO3` (spec section 4.A, written with
`‖phi‖` rather than the source's cached `squaredNorm`): `J = I` when
`‖phi‖` is at or below epsilon, otherwise
`J = I - hat(phi)(1-cos‖phi‖)/‖phi‖² + hat(phi)²(‖phi‖-sin‖phi‖)/‖phi‖³`. -/
def rightJacobianSO3_spec (phi : Vec3) : Mat3 :=
  if norm3 phi ≤ sophusEps then 1
  else
    1 - ((1 - Real.cos (norm3 phi)) / norm3 phi ^ 2) • hat phi
      + ((norm3 phi - Real.sin (norm3 phi)) / norm3 phi ^ 3) • (hat phi * hat phi)

/-- Spec formula for `rightJacobianInvSO3` (spec section 4.A): `J = I` when
`‖phi‖` is at or below epsilon, otherwise
`J = I + hat(phi)/2 + hat(phi)²·(1/‖phi‖² - (1+cos‖phi‖)/(2‖phi‖ sin‖phi‖))`. -/
def rightJacobianInvSO3_spec (phi : Vec3) : Mat3 :=
  if norm3 phi ≤ sophusEps then 1
  else
    1 + ((1 : ℝ) / 2) • hat phi
      + (1 / norm3 phi ^ 2
          - (1 + Real.cos (norm3 phi)) / (2 * norm3 phi * Real.sin (norm3 phi))) •
          (hat phi * hat phi)

/-- Divisions performed by `rightJacobianSO3` on the branch where they are
evaluated: `/ phi_norm2` and `/ phi_norm3` inside the `epsilon < ‖phi‖`
branch.  The proposition states that each denominator is nonzero there. -/
def rightJacobianSO3_divOk (phi : Vec3) : Prop :=
  sophusEps < norm3 phi →
    squaredNorm3 phi ≠ 0 ∧ squaredNorm3 phi * norm3 phi ≠ 0

/-- Divisions performed by `leftJacobianSO3` (same denominators as the
right variant). -/
def leftJacobianSO3_divOk (phi : Vec3) : Prop :=
  sophusEps < norm3 phi →
    squaredNorm3 phi ≠ 0 ∧ squaredNorm3 phi * norm3 phi ≠ 0

/-- Divisions performed by `rightJacobianInvSO3` on the branch where they
are evaluated: `hat(phi)/2`, `1/phi_norm2`, and the division by
`2·phi_norm·sin(phi_norm)`. -/
def rightJacobianInvSO3_divOk (phi : Vec3) : Prop :=
  sophusEps < norm3 phi →
    (2 : ℝ) ≠ 0 ∧ squaredNorm3 phi ≠ 0 ∧
      2 * norm3 phi * Real.sin (norm3 phi) ≠ 0

/-- Divisions performed by `leftJacobianInvSO3` (same denominators as the
right inverse variant). -/
def leftJacobianInvSO3_divOk (phi : Vec3) : Prop :=
  sophusEps < norm3 phi →
    (2 : ℝ) ≠ 0 ∧ squaredNorm3 phi ≠ 0 ∧
      2 * norm3 phi * Real.sin (norm3 phi) ≠ 0

/-- Divisions performed by `rightJacobianSE3Decoupled`: it divides only
inside its call `rightJacobianSO3(omega)` on `omega = phi.tail<3>()`. -/
def rightJacobianSE3Decoupled_divOk (phi : Vec6) : Prop :=
  rightJacobianSO3_divOk (tail3 phi)

/-- Divisions performed by `rightJacobianInvSE3Decoupled`: it divides only
inside its call `rightJacobianInvSO3(omega)` on `omega = phi.tail<3>()`. -/
def rightJacobianInvSE3Decoupled_divOk (phi : Vec6) : Prop :=
  rightJacobianInvSO3_divOk (tail3 phi)

/-- Modelled from the spec: the camera-model implementations
(`basalt::PinholeCamera` and its six siblings, `include/basalt/camera/`)
are not under `src/`; only their test driver is.  The spec gives the
pinhole projection in closed form (sections 4.B and 8): the perspective
divide `(fx·x/z + cx, fy·y/z + cy)`. -/
def pinholeProject (fx fy cx cy : ℝ) (p : Vec3) : ℝ × ℝ :=
  (fx * p 0 / p 2 + cx, fy * p 1 / p 2 + cy)

/-- Modelled from the spec: pinhole unprojection returns the
unit-normalized ray in the direction `((u-cx)/fx, (v-cy)/fy, 1)`
(spec sections 4.B and 8, round-trip law and concrete pinhole example). -/
def pinholeUnproject (fx fy cx cy : ℝ) (uv : ℝ × ℝ) : Vec3 :=
  (norm3 ![(uv.1 - cx) / fx, (uv.2 - cy) / fy, 1])⁻¹ •
    ![(uv.1 - cx) / fx, (uv.2 - cy) / fy, 1]

/-! ## Helper lemmas -/

theorem squaredNorm3_nonneg (v : Vec3) : 0 ≤ squaredNorm3 v := by
  unfold squaredNorm3; positivity

theorem norm3_nonneg (v : Vec3) : 0 ≤ norm3 v := Real.sqrt_nonneg _

theorem norm3_sq (v : Vec3) : norm3 v ^ 2 = squaredNorm3 v :=
  Real.sq_sqrt (squaredNorm3_nonneg v)

theorem sophusEps_pos : 0 < sophusEps := by norm_num [sophusEps]

theorem norm3_of_single (x : ℝ) (hx : 0 ≤ x) : norm3 ![x, 0, 0] = x := by
  have h : squaredNorm3 ![x, 0, 0] = x ^ 2 := by simp [squaredNorm3]
  rw [norm3, h, Real.sqrt_sq hx]

theorem norm3_eq_zero_iff (v : Vec3) : norm3 v = 0 ↔ v = 0 := by
  constructor
  · intro h
    have h0 : squaredNorm3 v = 0 := by
      rwa [norm3, Real.sqrt_eq_zero (squaredNorm3_nonneg v)] at h
    unfold squaredNorm3 at h0
    funext i
    have e0 : v 0 ^ 2 = 0 := by nlinarith [sq_nonneg (v 0), sq_nonneg (v 1), sq_nonneg (v 2)]
    have e1 : v 1 ^ 2 = 0 := by nlinarith [sq_nonneg (v 0), sq_nonneg (v 1), sq_nonneg (v 2)]
    have e2 : v 2 ^ 2 = 0 := by nlinarith [sq_nonneg (v 0), sq_nonneg (v 1), sq_nonneg (v 2)]
    fin_cases i
    · exact pow_eq_zero_iff two_ne_zero |>.mp e0
    · exact pow_eq_zero_iff two_ne_zero |>.mp e1
    · exact pow_eq_zero_iff two_ne_zero |>.mp e2
  · intro h
    subst h
    simp [norm3, squaredNorm3]

theorem squaredNorm3_neg (v : Vec3) : squaredNorm3 (-v) = squaredNorm3 v := by
  simp only [squaredNorm3, Pi.neg_apply]; ring

theorem norm3_neg (v : Vec3) : norm3 (-v) = norm3 v := by
  rw [norm3, squaredNorm3_neg, norm3]

theorem norm3_smul (c : ℝ) (v : Vec3) : norm3 (c • v) = |c| * norm3 v := by
  unfold norm3 squaredNorm3
  simp only [Pi.smul_apply, smul_eq_mul]
  rw [show (c * v 0) ^ 2 + (c * v 1) ^ 2 + (c * v 2) ^ 2
        = c ^ 2 * (v 0 ^ 2 + v 1 ^ 2 + v 2 ^ 2) by ring]
  rw [Real.sqrt_mul (sq_nonneg c), Real.sqrt_sq_eq_abs]

theorem hat_neg (v : Vec3) : hat (-v) = -hat v := by
  ext i j
  fin_cases i <;> fin_cases j <;> simp [hat]

theorem mulJJ (v : Vec3) (a b c d : ℝ)
    (h1 : a + c - squaredNorm3 v * (a * d + b * c) = 0)
    (h2 : b + d + a * c - squaredNorm3 v * (b * d) = 0) :
    (1 + c • hat v + d • (hat v * hat v)) * (1 + a • hat v + b • (hat v * hat v)) = 1 := by
  simp only [squaredNorm3] at h1 h2
  ext i j
  fin_cases i <;> fin_cases j <;>
    simp [hat, Matrix.mul_apply, Fin.sum_univ_three, Matrix.one_apply, Matrix.add_apply,
      Matrix.smul_apply, smul_eq_mul]
  · linear_combination (-(v 1 ^ 2) - v 2 ^ 2) * h2
  · linear_combination (-(v 2)) * h1 + (v 0 * v 1) * h2
  · linear_combination (v 1) * h1 + (v 0 * v 2) * h2
  · linear_combination (v 2) * h1 + (v 0 * v 1) * h2
  · linear_combination (-(v 0 ^ 2) - v 2 ^ 2) * h2
  · linear_combination (-(v 0)) * h1 + (v 1 * v 2) * h2
  · linear_combination (-(v 1)) * h1 + (v 0 * v 2) * h2
  · linear_combination (v 0) * h1 + (v 1 * v 2) * h2
  · linear_combination (-(v 0 ^ 2) - v 1 ^ 2) * h2

theorem coefId1 (n s co : ℝ) (hn : n ≠ 0) (hs : s ≠ 0) (hpy : s ^ 2 + co ^ 2 = 1) :
    (-((1 - co) / n ^ 2)) + 1 / 2
      - n ^ 2 * ((-((1 - co) / n ^ 2)) * (1 / n ^ 2 - (1 + co) / (2 * n * s))
          + ((n - s) / n ^ 3) * (1 / 2)) = 0 := by
  field_simp
  linear_combination (4 * n ^ 9) * hpy

theorem coefId2 (n s co : ℝ) (hn : n ≠ 0) (hs : s ≠ 0) :
    (n - s) / n ^ 3 + (1 / n ^ 2 - (1 + co) / (2 * n * s)) + (-((1 - co) / n ^ 2)) * (1 / 2)
      - n ^ 2 * (((n - s) / n ^ 3) * (1 / n ^ 2 - (1 + co) / (2 * n * s))) = 0 := by
  field_simp
  ring

theorem rightJacobianSO3_sum (phi : Vec3) (h : sophusEps < norm3 phi) :
    rightJacobianSO3 phi
      = 1 + (-((1 - Real.cos (norm3 phi)) / norm3 phi ^ 2)) • hat phi
          + ((norm3 phi - Real.sin (norm3 phi)) / norm3 phi ^ 3) • (hat phi * hat phi) := by
  rw [rightJacobianSO3, if_pos h, ← norm3_sq,
    show norm3 phi ^ 2 * norm3 phi = norm3 phi ^ 3 from by ring,
    neg_smul, ← sub_eq_add_neg]

theorem rightJacobianInvSO3_sum (phi : Vec3) (h : sophusEps < norm3 phi) :
    rightJacobianInvSO3 phi
      = 1 + ((1 : ℝ) / 2) • hat phi
          + (1 / norm3 phi ^ 2
              - (1 + Real.cos (norm3 phi)) / (2 * norm3 phi * Real.sin (norm3 phi))) •
              (hat phi * hat phi) := by
  rw [rightJacobianInvSO3, if_pos h, ← norm3_sq]

theorem leftJacobianSO3_sum (phi : Vec3) (h : sophusEps < norm3 phi) :
    leftJacobianSO3 phi
      = 1 + ((1 - Real.cos (norm3 phi)) / norm3 phi ^ 2) • hat phi
          + ((norm3 phi - Real.sin (norm3 phi)) / norm3 phi ^ 3) • (hat phi * hat phi) := by
  rw [leftJacobianSO3, if_pos h, ← norm3_sq,
    show norm3 phi ^ 2 * norm3 phi = norm3 phi ^ 3 from by ring]

theorem leftJacobianInvSO3_sum (phi : Vec3) (h : sophusEps < norm3 phi) :
    leftJacobianInvSO3 phi
      = 1 + (-((1 : ℝ) / 2)) • hat phi
          + (1 / norm3 phi ^ 2
              - (1 + Real.cos (norm3 phi)) / (2 * norm3 phi * Real.sin (norm3 phi))) •
              (hat phi * hat phi) := by
  rw [leftJacobianInvSO3, if_pos h, ← norm3_sq, neg_smul, ← sub_eq_add_neg]

theorem leftJacobianSO3_eq_right_neg (phi : Vec3) :
    leftJacobianSO3 phi = rightJacobianSO3 (-phi) := by
  rw [leftJacobianSO3, rightJacobianSO3, norm3_neg, squaredNorm3_neg, hat_neg]
  by_cases h : sophusEps < norm3 phi
  · rw [if_pos h, if_pos h, neg_mul_neg, smul_neg, sub_neg_eq_add]
  · rw [if_neg h, if_neg h]

theorem leftJacobianInvSO3_eq_right_neg (phi : Vec3) :
    leftJacobianInvSO3 phi = rightJacobianInvSO3 (-phi) := by
  rw [leftJacobianInvSO3, rightJacobianInvSO3, norm3_neg, squaredNorm3_neg, hat_neg]
  by_cases h : sophusEps < norm3 phi
  · rw [if_pos h, if_pos h, neg_mul_neg, smul_neg, ← sub_eq_add_neg]
  · rw [if_neg h, if_neg h]

theorem rightProductOne (phi : Vec3)
    (hc : Real.cos (norm3 phi) = 1 → norm3 phi ≤ sophusEps) :
    rightJacobianInvSO3 phi * rightJacobianSO3 phi = 1 := by
  by_cases hb : sophusEps < norm3 phi
  · have hn0 : (0 : ℝ) < norm3 phi := lt_trans sophusEps_pos hb
    have hn : norm3 phi ≠ 0 := ne_of_gt hn0
    have hpy := Real.sin_sq_add_cos_sq (norm3 phi)
    rw [rightJacobianInvSO3_sum phi hb, rightJacobianSO3_sum phi hb]
    by_cases hs : Real.sin (norm3 phi) = 0
    · have hco2 : Real.cos (norm3 phi) ^ 2 = 1 := by rw [hs] at hpy; nlinarith [hpy]
      have hfac : (Real.cos (norm3 phi) - 1) * (Real.cos (norm3 phi) + 1) = 0 := by
        linear_combination hco2
      have hco : Real.cos (norm3 phi) = -1 := by
        rcases mul_eq_zero.mp hfac with h | h
        · exact absurd (hc (by linarith)) (not_le.mpr hb)
        · linarith
      apply mulJJ <;> rw [← norm3_sq, hs, hco] <;> norm_num <;> field_simp <;> ring
    · apply mulJJ <;> rw [← norm3_sq]
      · exact coefId1 (norm3 phi) (Real.sin (norm3 phi)) (Real.cos (norm3 phi)) hn hs hpy
      · exact coefId2 (norm3 phi) (Real.sin (norm3 phi)) (Real.cos (norm3 phi)) hn hs
  · rw [rightJacobianInvSO3, if_neg hb, rightJacobianSO3, if_neg hb, one_mul]

theorem sophusEps_lt_pi : sophusEps < Real.pi := by
  have h3 := Real.pi_gt_three
  norm_num [sophusEps]
  linarith

/-! ## Claim theorems -/

/-- C1: for every 3-vector `phi`, `rightJacobianSO3 phi` is the identity
when `‖phi‖` is at or below the epsilon threshold and otherwise equals
`I − hat(phi)(1−cos‖phi‖)/‖phi‖² + hat(phi)²(‖phi‖−sin‖phi‖)/‖phi‖³`;
in particular it is the identity at `(0,0,0)` and equals the
non-degenerate closed form at `(π,0,0)`. -/
theorem rightJacobianSO3_correct :
    (∀ phi : Vec3, rightJacobianSO3 phi = rightJacobianSO3_spec phi)
      ∧ rightJacobianSO3 ![0, 0, 0] = 1
      ∧ rightJacobianSO3 ![Real.pi, 0, 0]
          = 1 - ((1 - Real.cos Real.pi) / Real.pi ^ 2) • hat ![Real.pi, 0, 0]
              + ((Real.pi - Real.sin Real.pi) / Real.pi ^ 3) •
                  (hat ![Real.pi, 0, 0] * hat ![Real.pi, 0, 0]) := by
  refine ⟨fun phi => ?_, ?_, ?_⟩
  · by_cases h : sophusEps < norm3 phi
    · rw [rightJacobianSO3_spec, if_neg (not_le.mpr h), rightJacobianSO3, if_pos h, ← norm3_sq,
        show norm3 phi ^ 2 * norm3 phi = norm3 phi ^ 3 from by ring]
    · rw [rightJacobianSO3, if_neg h, rightJacobianSO3_spec, if_pos (not_lt.mp h)]
  · have h0 : ¬ sophusEps < norm3 ![(0 : ℝ), 0, 0] := by
      rw [norm3_of_single 0 le_rfl]
      exact not_lt.mpr sophusEps_pos.le
    rw [rightJacobianSO3, if_neg h0]
  · have hπ : norm3 ![Real.pi, 0, 0] = Real.pi := norm3_of_single Real.pi Real.pi_pos.le
    have hlt : sophusEps < norm3 ![Real.pi, 0, 0] := by rw [hπ]; exact sophusEps_lt_pi
    have hsq : squaredNorm3 ![Real.pi, 0, 0] = Real.pi ^ 2 := by simp [squaredNorm3]
    rw [rightJacobianSO3, if_pos hlt, hπ, hsq,
      show Real.pi ^ 2 * Real.pi = Real.pi ^ 3 from by ring]

/-- C2: for every 3-vector `phi`, `rightJacobianInvSO3 phi` is the identity
when `‖phi‖` is at or below the epsilon threshold and otherwise equals
`I + hat(phi)/2 + hat(phi)²·(1/‖phi‖² − (1+cos‖phi‖)/(2‖phi‖ sin‖phi‖))`. -/
theorem rightJacobianInvSO3_correct :
    ∀ phi : Vec3, rightJacobianInvSO3 phi = rightJacobianInvSO3_spec phi := by
  intro phi
  by_cases h : sophusEps < norm3 phi
  · rw [rightJacobianInvSO3_spec, if_neg (not_le.mpr h), rightJacobianInvSO3, if_pos h,
      ← norm3_sq]
  · rw [rightJacobianInvSO3, if_neg h, rightJacobianInvSO3_spec, if_pos (not_lt.mp h)]

/-- C3 counterexample: at `phi = (π,0,0)` the function `rightJacobianInvSO3`
takes its non-identity branch (`ε < ‖phi‖ = π`) yet the denominator
`2‖phi‖·sin‖phi‖` of its second coefficient is exactly zero, refuting the
claim that every division in every Lie-Jacobian function has a nonzero
denominator on the branch where it is evaluated. -/
theorem rightJacobianInvSO3_div_zero_at_pi :
    ¬ rightJacobianInvSO3_divOk ![Real.pi, 0, 0] := by
  intro h
  have hπ : norm3 ![Real.pi, 0, 0] = Real.pi := norm3_of_single Real.pi Real.pi_pos.le
  have hb : sophusEps < norm3 ![Real.pi, 0, 0] := by rw [hπ]; exact sophusEps_lt_pi
  obtain ⟨-, -, h3⟩ := h hb
  apply h3
  rw [hπ, Real.sin_pi, mul_zero]

/-- C3 amended: every division performed by `rightJacobianSO3`,
`leftJacobianSO3` and `rightJacobianSE3Decoupled` has a nonzero denominator
on the branch where it is evaluated; for the inverse variants the same
holds for all denominators except `2‖phi‖·sin‖phi‖`, which is nonzero
exactly when `sin‖phi‖ ≠ 0` (it vanishes when `‖phi‖` is a positive
multiple of `π`, as at the counterexample input `(π,0,0)`). -/
theorem jacobians_divisions_sound :
    ∀ (phi : Vec3) (xi : Vec6),
      rightJacobianSO3_divOk phi ∧ leftJacobianSO3_divOk phi
        ∧ rightJacobianSE3Decoupled_divOk xi
        ∧ (Real.sin (norm3 phi) ≠ 0 →
            rightJacobianInvSO3_divOk phi ∧ leftJacobianInvSO3_divOk phi)
        ∧ (Real.sin (norm3 (tail3 xi)) ≠ 0 → rightJacobianInvSE3Decoupled_divOk xi) := by
  have key : ∀ w : Vec3, sophusEps < norm3 w →
      squaredNorm3 w ≠ 0 ∧ squaredNorm3 w * norm3 w ≠ 0 := by
    intro w hb
    have hw0 : 0 < norm3 w := lt_trans sophusEps_pos hb
    have hsq : squaredNorm3 w ≠ 0 := by
      rw [← norm3_sq]; exact pow_ne_zero 2 (ne_of_gt hw0)
    exact ⟨hsq, mul_ne_zero hsq (ne_of_gt hw0)⟩
  have keyInv : ∀ w : Vec3, Real.sin (norm3 w) ≠ 0 → sophusEps < norm3 w →
      (2 : ℝ) ≠ 0 ∧ squaredNorm3 w ≠ 0 ∧ 2 * norm3 w * Real.sin (norm3 w) ≠ 0 := by
    intro w hs hb
    have hw0 : 0 < norm3 w := lt_trans sophusEps_pos hb
    refine ⟨two_ne_zero, (key w hb).1, ?_⟩
    exact mul_ne_zero (mul_ne_zero two_ne_zero (ne_of_gt hw0)) hs
  intro phi xi
  exact ⟨fun hb => key phi hb, fun hb => key phi hb, fun hb => key (tail3 xi) hb,
    fun hs => ⟨fun hb => keyInv phi hs hb, fun hb => keyInv phi hs hb⟩,
    fun hs hb => keyInv (tail3 xi) hs hb⟩

/-- C3 witness: the amended soundness statement applied at the concrete
inputs `phi = (1,0,0)` and `xi = (0,0,0,1,0,0)`, whose rotational norm `1`
has nonzero sine. -/
theorem jacobians_divisions_sound_witness :
    Real.sin (norm3 ![(1 : ℝ), 0, 0]) ≠ 0
      ∧ rightJacobianInvSO3_divOk ![(1 : ℝ), 0, 0]
      ∧ rightJacobianInvSE3Decoupled_divOk ![0, 0, 0, (1 : ℝ), 0, 0] := by
  have hn : norm3 ![(1 : ℝ), 0, 0] = 1 := norm3_of_single 1 (by norm_num)
  have hsin : Real.sin (norm3 ![(1 : ℝ), 0, 0]) ≠ 0 := by
    rw [hn]
    exact ne_of_gt (Real.sin_pos_of_pos_of_lt_pi one_pos (by linarith [Real.pi_gt_three]))
  have htail : tail3 ![0, 0, 0, (1 : ℝ), 0, 0] = ![(1 : ℝ), 0, 0] := by
    funext i; fin_cases i <;> rfl
  have h := jacobians_divisions_sound ![(1 : ℝ), 0, 0] ![0, 0, 0, (1 : ℝ), 0, 0]
  refine ⟨hsin, (h.2.2.2.1 hsin).1, h.2.2.2.2 ?_⟩
  rw [htail]
  exact hsin

/-- C5 counterexample: at `phi = (2π,0,0)` the product
`rightJacobianInvSO3(phi) · rightJacobianSO3(phi)` is not the identity
(`rightJacobianSO3` is singular there), refuting the claim for every
3-vector. -/
theorem jacobian_inverse_product_fails_at_two_pi :
    rightJacobianInvSO3 ![2 * Real.pi, 0, 0] * rightJacobianSO3 ![2 * Real.pi, 0, 0] ≠ 1 := by
  have h1 : norm3 ![2 * Real.pi, 0, 0] = 2 * Real.pi := norm3_of_single _ (by positivity)
  have hb : sophusEps < norm3 ![2 * Real.pi, 0, 0] := by
    rw [h1]
    have h3 := Real.pi_gt_three
    norm_num [sophusEps]
    linarith
  rw [rightJacobianInvSO3_sum _ hb, rightJacobianSO3_sum _ hb, h1, Real.cos_two_pi,
    Real.sin_two_pi]
  intro hEq
  have hval := Matrix.ext_iff.mpr hEq 1 1
  have hpi := Real.pi_ne_zero
  simp [hat, Matrix.mul_apply, Fin.sum_univ_three, Matrix.one_apply, Matrix.add_apply,
    Matrix.smul_apply, smul_eq_mul] at hval
  field_simp at hval
  have h0 : (0 : ℝ) = (2 * Real.pi) ^ 2 * (2 * Real.pi) ^ 3 := by linear_combination hval
  have hgt : (0 : ℝ) < (2 * Real.pi) ^ 2 * (2 * Real.pi) ^ 3 := by positivity
  linarith

/-- C5 amended: for every 3-vector `phi` that is not a singular point of
the Jacobian — i.e. excluding those with `cos‖phi‖ = 1` above the epsilon
threshold, which are exactly the nonzero multiples of `2π` where
`rightJacobianSO3` has no inverse — the inverse-Jacobian functions are
exact matrix inverses: `rightJacobianInvSO3(phi) · rightJacobianSO3(phi) = I`
and `leftJacobianInvSO3(phi) · leftJacobianSO3(phi) = I`. -/
theorem jacobian_inverse_products :
    ∀ phi : Vec3, (Real.cos (norm3 phi) = 1 → norm3 phi ≤ sophusEps) →
      rightJacobianInvSO3 phi * rightJacobianSO3 phi = 1
        ∧ leftJacobianInvSO3 phi * leftJacobianSO3 phi = 1 := by
  intro phi hc
  refine ⟨rightProductOne phi hc, ?_⟩
  rw [leftJacobianSO3_eq_right_neg, leftJacobianInvSO3_eq_right_neg]
  exact rightProductOne (-phi) (by rw [norm3_neg]; exact hc)

/-- C5 witness: the inverse-product theorem applied at `phi = (π,0,0)`,
where `cos‖phi‖ = −1 ≠ 1` discharges the non-singularity hypothesis. -/
theorem jacobian_inverse_products_witness :
    rightJacobianInvSO3 ![Real.pi, 0, 0] * rightJacobianSO3 ![Real.pi, 0, 0] = 1
      ∧ leftJacobianInvSO3 ![Real.pi, 0, 0] * leftJacobianSO3 ![Real.pi, 0, 0] = 1 := by
  apply jacobian_inverse_products
  intro hcos
  rw [norm3_of_single Real.pi Real.pi_pos.le, Real.cos_pi] at hcos
  norm_num at hcos

/-- C6: the left Jacobian variants equal the right-variant formulas with
the sign of the linear `hat(phi)` term flipped — formally, they agree with
the right variants evaluated at `−phi`, which negates `hat(phi)` and keeps
the norm, the `cos`/`sin` coefficients and `hat(phi)²` unchanged — and
both left variants return exactly the identity when `‖phi‖` is at or below
the epsilon threshold. -/
theorem left_jacobians_sign_flip :
    ∀ phi : Vec3,
      leftJacobianSO3 phi = rightJacobianSO3 (-phi)
        ∧ leftJacobianInvSO3 phi = rightJacobianInvSO3 (-phi)
        ∧ (norm3 phi ≤ sophusEps → leftJacobianSO3 phi = 1 ∧ leftJacobianInvSO3 phi = 1) := by
  intro phi
  refine ⟨leftJacobianSO3_eq_right_neg phi, leftJacobianInvSO3_eq_right_neg phi, fun hle => ?_⟩
  have hb : ¬ sophusEps < norm3 phi := not_lt.mpr hle
  exact ⟨by rw [leftJacobianSO3, if_neg hb], by rw [leftJacobianInvSO3, if_neg hb]⟩

/-- C6 witness: the sign-flip theorem applied at `phi = (0,0,0)`, which has
norm `0 ≤ ε` and so also exercises the identity branch. -/
theorem left_jacobians_sign_flip_witness :
    leftJacobianSO3 ![0, 0, 0] = rightJacobianSO3 (-![0, 0, 0])
      ∧ leftJacobianInvSO3 ![0, 0, 0] = rightJacobianInvSO3 (-![0, 0, 0])
      ∧ (leftJacobianSO3 ![0, 0, 0] = 1 ∧ leftJacobianInvSO3 ![0, 0, 0] = 1) := by
  have h := left_jacobians_sign_flip ![0, 0, 0]
  have hle : norm3 ![(0 : ℝ), 0, 0] ≤ sophusEps := by
    rw [norm3_of_single 0 le_rfl]
    exact sophusEps_pos.le
  exact ⟨h.1, h.2.1, h.2.2 hle⟩

/-- C7: block structure of the decoupled SE(3) Jacobians: for every
6-vector `phi` with `omega = tail<3>(phi)`, `rightJacobianSE3Decoupled phi`
has top-left 3x3 block the rotation matrix of the inverse of
`SO3::exp(omega)`, bottom-right 3x3 block `rightJacobianSO3(omega)`, and
exactly zero off-diagonal blocks; `rightJacobianInvSE3Decoupled phi` has
the same layout with top-left the (non-inverted) rotation matrix of
`SO3::exp(omega)` and bottom-right `rightJacobianInvSO3(omega)`. -/
theorem se3_decoupled_jacobian_blocks :
    ∀ (phi : Vec6) (i j : Fin 3),
      (rightJacobianSE3Decoupled phi ⟨(i : ℕ), by have := i.isLt; omega⟩
            ⟨(j : ℕ), by have := j.isLt; omega⟩
          = quatToMatrix (quatInv (SO3exp (tail3 phi))) i j
        ∧ rightJacobianSE3Decoupled phi ⟨(i : ℕ) + 3, by have := i.isLt; omega⟩
            ⟨(j : ℕ) + 3, by have := j.isLt; omega⟩
          = rightJacobianSO3 (tail3 phi) i j
        ∧ rightJacobianSE3Decoupled phi ⟨(i : ℕ), by have := i.isLt; omega⟩
            ⟨(j : ℕ) + 3, by have := j.isLt; omega⟩ = 0
        ∧ rightJacobianSE3Decoupled phi ⟨(i : ℕ) + 3, by have := i.isLt; omega⟩
            ⟨(j : ℕ), by have := j.isLt; omega⟩ = 0)
      ∧ (rightJacobianInvSE3Decoupled phi ⟨(i : ℕ), by have := i.isLt; omega⟩
            ⟨(j : ℕ), by have := j.isLt; omega⟩
          = quatToMatrix (SO3exp (tail3 phi)) i j
        ∧ rightJacobianInvSE3Decoupled phi ⟨(i : ℕ) + 3, by have := i.isLt; omega⟩
            ⟨(j : ℕ) + 3, by have := j.isLt; omega⟩
          = rightJacobianInvSO3 (tail3 phi) i j
        ∧ rightJacobianInvSE3Decoupled phi ⟨(i : ℕ), by have := i.isLt; omega⟩
            ⟨(j : ℕ) + 3, by have := j.isLt; omega⟩ = 0
        ∧ rightJacobianInvSE3Decoupled phi ⟨(i : ℕ) + 3, by have := i.isLt; omega⟩
            ⟨(j : ℕ), by have := j.isLt; omega⟩ = 0) := by
  intro phi i j
  have hi3 : (i : ℕ) < 3 := i.isLt
  have hj3 : (j : ℕ) < 3 := j.isLt
  have hi3' : ¬ (i : ℕ) + 3 < 3 := by omega
  have hj3' : ¬ (j : ℕ) + 3 < 3 := by omega
  refine ⟨⟨?_, ?_, ?_, ?_⟩, ?_, ?_, ?_, ?_⟩ <;>
    simp only [rightJacobianSE3Decoupled, rightJacobianInvSE3Decoupled, Matrix.of_apply]
  · rw [dif_pos hi3, dif_pos hj3]
  · rw [dif_neg hi3', if_neg hj3']
    simp only [Nat.add_sub_cancel, Fin.eta]
  · rw [dif_pos hi3, dif_neg hj3']
  · rw [dif_neg hi3', if_pos hj3]
  · rw [dif_pos hi3, dif_pos hj3]
  · rw [dif_neg hi3', if_neg hj3']
    simp only [Nat.add_sub_cancel, Fin.eta]
  · rw [dif_pos hi3, dif_neg hj3']
  · rw [dif_neg hi3', if_pos hj3]

/-- Round-trip law for the spec-modelled pinhole camera (claim C8, pinhole
instance): for nonzero focal lengths and any ray with `z > 0` (the pinhole
valid domain), unprojecting the projection yields exactly the unit
normalization of the ray — in particular a ray parallel to the input. -/
theorem pinhole_project_unproject_round_trip (fx fy cx cy : ℝ) (p : Vec3)
    (hfx : fx ≠ 0) (hfy : fy ≠ 0) (hz : 0 < p 2) :
    pinholeUnproject fx fy cx cy (pinholeProject fx fy cx cy p) = (norm3 p)⁻¹ • p := by
  have hz' : p 2 ≠ 0 := ne_of_gt hz
  have hsq : 0 < squaredNorm3 p := by
    unfold squaredNorm3
    nlinarith [sq_nonneg (p 0), sq_nonneg (p 1), hz]
  have hnp : 0 < norm3 p := Real.sqrt_pos.mpr hsq
  simp only [pinholeProject, pinholeUnproject]
  have hdir : ![(fx * p 0 / p 2 + cx - cx) / fx, (fy * p 1 / p 2 + cy - cy) / fy, (1 : ℝ)]
      = (p 2)⁻¹ • p := by
    funext k
    fin_cases k
    · show (fx * p 0 / p 2 + cx - cx) / fx = (p 2)⁻¹ * p 0
      field_simp
      ring
    · show (fy * p 1 / p 2 + cy - cy) / fy = (p 2)⁻¹ * p 1
      field_simp
      ring
    · show (1 : ℝ) = (p 2)⁻¹ * p 2
      field_simp
  rw [hdir, norm3_smul, abs_of_pos (inv_pos.mpr hz), smul_smul]
  congr 1
  field_simp
  ring

/-- The spec's concrete pinhole example: parameters
`[fx=500, fy=500, cx=320, cy=240]` project the ray `(1,0,5)` to the pixel
`(420,240)`. -/
theorem pinhole_concrete_example :
    pinholeProject 500 500 320 240 ![1, 0, 5] = (420, 240) := by
  rw [pinholeProject]
  norm_num

/-- C10: all four SO(3) Jacobian variants gate their non-identity branch on
the strict inequality `ε < ‖phi‖` against the shared Sophus epsilon, so an
input whose norm is exactly `ε` falls in the identity branch of every one
of them. -/
theorem jacobians_identity_at_epsilon_boundary :
    ∀ phi : Vec3, norm3 phi = sophusEps →
      rightJacobianSO3 phi = 1 ∧ rightJacobianInvSO3 phi = 1
        ∧ leftJacobianSO3 phi = 1 ∧ leftJacobianInvSO3 phi = 1 := by
  intro phi h
  have hb : ¬ sophusEps < norm3 phi := by rw [h]; exact lt_irrefl _
  exact ⟨by rw [rightJacobianSO3, if_neg hb], by rw [rightJacobianInvSO3, if_neg hb],
    by rw [leftJacobianSO3, if_neg hb], by rw [leftJacobianInvSO3, if_neg hb]⟩

theorem atan2p_pos_of_nonneg (n w : ℝ) (hn : 0 < n) (hw : 0 ≤ w) : 0 < atan2p n w := by
  unfold atan2p
  by_cases hw0 : w = 0
  · rw [if_pos hw0]
    exact Real.pi_div_two_pos
  · rw [if_neg hw0]
    have hwpos : 0 < w := lt_of_le_of_ne hw (Ne.symm hw0)
    have h0 : Real.arctan 0 < Real.arctan (n / w) := Real.arctan_strictMono (div_pos hn hwpos)
    simpa [Real.arctan_zero] using h0

theorem atan2p_neg_of_neg (n w : ℝ) (hn : 0 < n) (hw : w < 0) : atan2p n w < 0 := by
  unfold atan2p
  rw [if_neg (ne_of_lt hw)]
  have h0 : Real.arctan (n / w) < Real.arctan 0 :=
    Real.arctan_strictMono (div_neg_of_pos_of_neg hn hw)
  simpa [Real.arctan_zero] using h0

theorem atan2p_sin_cos_principal (x : ℝ) (hx0 : 0 < x) (hxle : x ≤ Real.pi / 2) :
    atan2p (Real.sin x) (Real.cos x) = x := by
  unfold atan2p
  by_cases hc : Real.cos x = 0
  · rw [if_pos hc]
    rcases Real.cos_eq_zero_iff.mp hc with ⟨k, hk⟩
    have hπ := Real.pi_pos
    have hk0 : k = 0 := by
      by_contra hkne
      rcases lt_or_gt_of_ne hkne with hlt | hgt
      · have hk1 : (k : ℝ) ≤ -1 := by exact_mod_cast (by omega : k ≤ -1)
        nlinarith
      · have hk1 : (1 : ℝ) ≤ (k : ℝ) := by exact_mod_cast (by omega : 1 ≤ k)
        nlinarith
    rw [hk0] at hk
    norm_num at hk
    linarith [hk]
  · rw [if_neg hc]
    have hx2 : x < Real.pi / 2 := by
      rcases lt_or_eq_of_le hxle with h | h
      · exact h
      · exact absurd (by rw [h]; exact Real.cos_pi_div_two) hc
    rw [← Real.tan_eq_sin_div_cos, Real.arctan_tan (by linarith [Real.pi_pos]) hx2]

theorem atan2p_sin_cos_wrap (x : ℝ) (h1 : Real.pi / 2 < x) (h2 : x < Real.pi) :
    atan2p (Real.sin x) (Real.cos x) = x - Real.pi := by
  have hcneg : Real.cos x < 0 :=
    Real.cos_neg_of_pi_div_two_lt_of_lt h1 (by linarith [Real.pi_pos])
  unfold atan2p
  rw [if_neg (ne_of_lt hcneg), ← Real.tan_eq_sin_div_cos,
    show Real.tan x = Real.tan (x - Real.pi) from (Real.tan_periodic.sub_eq x).symm,
    Real.arctan_tan (by linarith) (by linarith [Real.pi_pos])]

theorem cos_sin_atan2p_pos (n w : ℝ) (hn : 0 < n) (hw : 0 < w) (hu : w ^ 2 + n ^ 2 = 1) :
    Real.cos (atan2p n w) = w ∧ Real.sin (atan2p n w) = n := by
  unfold atan2p
  rw [if_neg (ne_of_gt hw)]
  have hww : w ≠ 0 := ne_of_gt hw
  have h1 : Real.sqrt (1 + (n / w) ^ 2) = 1 / w := by
    rw [show 1 + (n / w) ^ 2 = (1 / w) ^ 2 from by field_simp; linear_combination hu,
      Real.sqrt_sq (by positivity)]
  constructor
  · rw [Real.cos_arctan, h1]
    field_simp
  · rw [Real.sin_arctan, h1]
    field_simp

theorem cos_sin_atan2p_zero (n : ℝ) (hn : 0 < n) (hu : (0 : ℝ) ^ 2 + n ^ 2 = 1) :
    Real.cos (atan2p n 0) = 0 ∧ Real.sin (atan2p n 0) = n := by
  unfold atan2p
  rw [if_pos rfl]
  have hn1 : n = 1 := by nlinarith
  rw [Real.cos_pi_div_two, Real.sin_pi_div_two, hn1]
  exact ⟨rfl, rfl⟩

theorem cos_sin_atan2p_neg (n w : ℝ) (hn : 0 < n) (hw : w < 0) (hu : w ^ 2 + n ^ 2 = 1) :
    Real.cos (atan2p n w) = -w ∧ Real.sin (atan2p n w) = -n := by
  unfold atan2p
  rw [if_neg (ne_of_lt hw)]
  have hww : w ≠ 0 := ne_of_lt hw
  have h1 : Real.sqrt (1 + (n / w) ^ 2) = -(1 / w) := by
    rw [show 1 + (n / w) ^ 2 = (-(1 / w)) ^ 2 from by field_simp; linear_combination hu,
      Real.sqrt_sq (le_of_lt (neg_pos.mpr (one_div_neg.mpr hw)))]
  constructor
  · rw [Real.cos_arctan, h1]
    field_simp
  · rw [Real.sin_arctan, h1]
    field_simp

theorem quatToMatrix_neg (q : Quat) : quatToMatrix ⟨-q.w, -q.v⟩ = quatToMatrix q := by
  ext i j
  fin_cases i <;> fin_cases j <;> simp [quatToMatrix]

theorem head3_vec6 (h t : Vec3) : head3 (vec6 h t) = h := by
  funext i; fin_cases i <;> rfl

theorem tail3_vec6 (h t : Vec3) : tail3 (vec6 h t) = t := by
  funext i; fin_cases i <;> rfl

theorem vec6_head_tail (u : Vec6) : vec6 (head3 u) (tail3 u) = u := by
  funext i; fin_cases i <;> rfl

theorem SO3exp_zero : SO3exp (0 : Vec3) = ⟨1, 0⟩ := by
  rw [SO3exp, if_pos ((norm3_eq_zero_iff _).mpr rfl)]

theorem SO3log_of_vec_zero (q : Quat) (hv : q.v = 0) : SO3log q = 0 := by
  rw [SO3log, if_pos (by rw [hv]; exact (norm3_eq_zero_iff _).mpr rfl)]

theorem SO3exp_SO3log_of_nonneg (q : Quat) (hu : unitQuat q) (hw : 0 ≤ q.w) :
    SO3exp (SO3log q) = q := by
  by_cases hv : norm3 q.v = 0
  · have hqv : q.v = 0 := (norm3_eq_zero_iff _).mp hv
    have hw2 : q.w ^ 2 = 1 := by
      have hu' := hu
      rw [unitQuat, hqv] at hu'
      simpa [squaredNorm3] using hu'
    have hw1 : q.w = 1 := by nlinarith
    rw [SO3log_of_vec_zero q hqv, SO3exp_zero]
    exact Quat.ext hw1.symm hqv.symm
  · have hn0 : 0 < norm3 q.v := lt_of_le_of_ne (norm3_nonneg _) (Ne.symm hv)
    have hunit : q.w ^ 2 + norm3 q.v ^ 2 = 1 := by rw [norm3_sq]; exact hu
    have hα := atan2p_pos_of_nonneg (norm3 q.v) q.w hn0 hw
    have hcs : Real.cos (atan2p (norm3 q.v) q.w) = q.w
        ∧ Real.sin (atan2p (norm3 q.v) q.w) = norm3 q.v := by
      rcases lt_or_eq_of_le hw with hwpos | hwzero
      · exact cos_sin_atan2p_pos (norm3 q.v) q.w hn0 hwpos hunit
      · rw [← hwzero]
        rw [← hwzero] at hunit
        exact cos_sin_atan2p_zero (norm3 q.v) hn0 hunit
    obtain ⟨hcos, hsin⟩ := hcs
    have hlog : SO3log q = (2 * atan2p (norm3 q.v) q.w / norm3 q.v) • q.v := by
      rw [SO3log, if_neg hv]
    have hc0 : 0 < 2 * atan2p (norm3 q.v) q.w / norm3 q.v := by positivity
    have hm : norm3 ((2 * atan2p (norm3 q.v) q.w / norm3 q.v) • q.v)
        = 2 * atan2p (norm3 q.v) q.w := by
      rw [norm3_smul, abs_of_pos hc0]
      field_simp
    rw [hlog, SO3exp, if_neg (by rw [hm]; exact ne_of_gt (by positivity)), hm,
      show 2 * atan2p (norm3 q.v) q.w / 2 = atan2p (norm3 q.v) q.w from by ring]
    apply Quat.ext
    · exact hcos
    · show (Real.sin (atan2p (norm3 q.v) q.w) / (2 * atan2p (norm3 q.v) q.w)) •
          ((2 * atan2p (norm3 q.v) q.w / norm3 q.v) • q.v) = q.v
      rw [smul_smul, hsin,
        show norm3 q.v / (2 * atan2p (norm3 q.v) q.w) * (2 * atan2p (norm3 q.v) q.w / norm3 q.v)
            = 1 from by field_simp, one_smul]

theorem SO3exp_SO3log_of_neg (q : Quat) (hu : unitQuat q) (hw : q.w < 0) :
    SO3exp (SO3log q) = ⟨-q.w, -q.v⟩ := by
  by_cases hv : norm3 q.v = 0
  · have hqv : q.v = 0 := (norm3_eq_zero_iff _).mp hv
    have hw2 : q.w ^ 2 = 1 := by
      have hu' := hu
      rw [unitQuat, hqv] at hu'
      simpa [squaredNorm3] using hu'
    have hw1 : q.w = -1 := by nlinarith
    rw [SO3log_of_vec_zero q hqv, SO3exp_zero]
    apply Quat.ext
    · show (1 : ℝ) = -q.w
      rw [hw1]
      norm_num
    · show (0 : Vec3) = -q.v
      rw [hqv, neg_zero]
  · have hn0 : 0 < norm3 q.v := lt_of_le_of_ne (norm3_nonneg _) (Ne.symm hv)
    have hunit : q.w ^ 2 + norm3 q.v ^ 2 = 1 := by rw [norm3_sq]; exact hu
    have hα := atan2p_neg_of_neg (norm3 q.v) q.w hn0 hw
    have hα0 : atan2p (norm3 q.v) q.w ≠ 0 := ne_of_lt hα
    obtain ⟨hcos, hsin⟩ := cos_sin_atan2p_neg (norm3 q.v) q.w hn0 hw hunit
    have hlog : SO3log q = (2 * atan2p (norm3 q.v) q.w / norm3 q.v) • q.v := by
      rw [SO3log, if_neg hv]
    have hcneg : 2 * atan2p (norm3 q.v) q.w / norm3 q.v < 0 := by
      apply div_neg_of_neg_of_pos _ hn0
      linarith
    have hm : norm3 ((2 * atan2p (norm3 q.v) q.w / norm3 q.v) • q.v)
        = -(2 * atan2p (norm3 q.v) q.w) := by
      rw [norm3_smul, abs_of_neg hcneg]
      field_simp
    have hmpos : 0 < -(2 * atan2p (norm3 q.v) q.w) := by linarith
    rw [hlog, SO3exp, if_neg (by rw [hm]; exact ne_of_gt hmpos), hm]
    apply Quat.ext
    · show Real.cos (-(2 * atan2p (norm3 q.v) q.w) / 2) = -q.w
      rw [show -(2 * atan2p (norm3 q.v) q.w) / 2 = -atan2p (norm3 q.v) q.w from by ring,
        Real.cos_neg, hcos]
    · show (Real.sin (-(2 * atan2p (norm3 q.v) q.w) / 2) / -(2 * atan2p (norm3 q.v) q.w)) •
          ((2 * atan2p (norm3 q.v) q.w / norm3 q.v) • q.v) = -q.v
      rw [show -(2 * atan2p (norm3 q.v) q.w) / 2 = -atan2p (norm3 q.v) q.w from by ring,
        Real.sin_neg, hsin, smul_smul]
      have hsc : - -norm3 q.v / -(2 * atan2p (norm3 q.v) q.w)
          * (2 * atan2p (norm3 q.v) q.w / norm3 q.v) = -1 := by
        field_simp
        ring
      rw [hsc, neg_one_smul]

theorem SO3log_SO3exp (omega : Vec3) (hle : norm3 omega ≤ Real.pi) :
    SO3log (SO3exp omega) = omega := by
  by_cases h0 : norm3 omega = 0
  · rw [SO3exp, if_pos h0, SO3log_of_vec_zero _ rfl]
    exact ((norm3_eq_zero_iff _).mp h0).symm
  · have hm0 : 0 < norm3 omega := lt_of_le_of_ne (norm3_nonneg _) (Ne.symm h0)
    have hhalf0 : 0 < norm3 omega / 2 := by linarith
    have hhalfle : norm3 omega / 2 ≤ Real.pi / 2 := by linarith
    have hhalfπ : norm3 omega / 2 < Real.pi := by linarith [Real.pi_pos]
    have hs : 0 < Real.sin (norm3 omega / 2) := Real.sin_pos_of_pos_of_lt_pi hhalf0 hhalfπ
    have hvn : norm3 ((Real.sin (norm3 omega / 2) / norm3 omega) • omega)
        = Real.sin (norm3 omega / 2) := by
      rw [norm3_smul, abs_of_pos (by positivity)]
      field_simp
    rw [SO3exp, if_neg h0, SO3log]
    show (if norm3 ((Real.sin (norm3 omega / 2) / norm3 omega) • omega) = 0 then (0 : Vec3)
      else (2 * atan2p (norm3 ((Real.sin (norm3 omega / 2) / norm3 omega) • omega))
              (Real.cos (norm3 omega / 2))
            / norm3 ((Real.sin (norm3 omega / 2) / norm3 omega) • omega)) •
          ((Real.sin (norm3 omega / 2) / norm3 omega) • omega)) = omega
    rw [if_neg (by rw [hvn]; exact ne_of_gt hs), hvn,
      atan2p_sin_cos_principal (norm3 omega / 2) hhalf0 hhalfle, smul_smul,
      show 2 * (norm3 omega / 2) / Real.sin (norm3 omega / 2)
            * (Real.sin (norm3 omega / 2) / norm3 omega) = 1 from by field_simp, one_smul]

/-- C4 counterexample: at `v = (0,0,0,2π,0,0)` the rotation part has norm
`2π`, `expd(v)` is the identity rotation with zero translation, and
`logd(expd(v)) = 0 ≠ v`, refuting the exact round trip for every
6-vector. -/
theorem logd_expd_fails_at_two_pi :
    logd (expd ![0, 0, 0, 2 * Real.pi, 0, 0]) ≠ ![0, 0, 0, 2 * Real.pi, 0, 0] := by
  intro h
  have ht : tail3 ![0, 0, 0, 2 * Real.pi, 0, 0] = ![2 * Real.pi, 0, 0] := by
    funext i; fin_cases i <;> rfl
  have hn : norm3 ![2 * Real.pi, 0, 0] = 2 * Real.pi := norm3_of_single _ (by positivity)
  have hexp : SO3exp ![2 * Real.pi, 0, 0]
      = ⟨Real.cos (2 * Real.pi / 2), (Real.sin (2 * Real.pi / 2) / (2 * Real.pi)) •
          ![2 * Real.pi, 0, 0]⟩ := by
    rw [SO3exp, if_neg (by rw [hn]; positivity), hn]
  have hvz : (Real.sin (2 * Real.pi / 2) / (2 * Real.pi)) • ![2 * Real.pi, 0, 0]
      = (0 : Vec3) := by
    rw [show 2 * Real.pi / 2 = Real.pi from by ring, Real.sin_pi, zero_div, zero_smul]
  have hlog : SO3log (SO3exp (tail3 ![0, 0, 0, 2 * Real.pi, 0, 0])) = 0 := by
    rw [ht, hexp]
    exact SO3log_of_vec_zero _ hvz
  have hL : logd (expd ![0, 0, 0, 2 * Real.pi, 0, 0]) 3 = 0 := by
    calc logd (expd ![0, 0, 0, 2 * Real.pi, 0, 0]) 3
        = SO3log (SO3exp (tail3 ![0, 0, 0, 2 * Real.pi, 0, 0])) 0 := rfl
      _ = 0 := by rw [hlog]; rfl
  have h2 : (0 : ℝ) = 2 * Real.pi := by
    rw [← hL]
    exact congrFun h 3
  linarith [Real.pi_pos]

/-- Wrapping of the decoupled logarithm beyond the principal domain: at
`v = (0,0,0,4,0,0)` the rotation norm is `4 ∈ (π, 2π)` and the rotation
logarithm of `SO3::exp` returns the principal vector, so component 3 of
`logd(expd(v))` is `4 − 2π`, not `4`. -/
theorem logd_expd_wraps_beyond_pi :
    logd (expd ![0, 0, 0, 4, 0, 0]) 3 = 4 - 2 * Real.pi
      ∧ (4 - 2 * Real.pi ≠ (4 : ℝ)) := by
  have ht : tail3 ![0, 0, 0, (4 : ℝ), 0, 0] = ![4, 0, 0] := by
    funext i; fin_cases i <;> rfl
  have hn4 : norm3 ![(4 : ℝ), 0, 0] = 4 := norm3_of_single 4 (by norm_num)
  have h2lt : (2 : ℝ) < Real.pi := by linarith [Real.pi_gt_three]
  have hgt : Real.pi / 2 < 2 := by linarith [Real.pi_lt_d2]
  have hs2 : 0 < Real.sin 2 := Real.sin_pos_of_pos_of_lt_pi (by norm_num) h2lt
  have hs2' : Real.sin 2 ≠ 0 := ne_of_gt hs2
  have hexp : SO3exp ![(4 : ℝ), 0, 0]
      = ⟨Real.cos 2, (Real.sin 2 / 4) • ![(4 : ℝ), 0, 0]⟩ := by
    rw [SO3exp, if_neg (by rw [hn4]; norm_num), hn4,
      show (4 : ℝ) / 2 = 2 from by norm_num]
  have hvn : norm3 ((Real.sin 2 / 4) • ![(4 : ℝ), 0, 0]) = Real.sin 2 := by
    rw [norm3_smul, hn4, abs_of_pos (by positivity)]
    ring
  have hwrap : atan2p (Real.sin 2) (Real.cos 2) = 2 - Real.pi :=
    atan2p_sin_cos_wrap 2 hgt h2lt
  have hlog0 : SO3log ⟨Real.cos 2, (Real.sin 2 / 4) • ![(4 : ℝ), 0, 0]⟩
      = (2 * atan2p (Real.sin 2) (Real.cos 2) / Real.sin 2) •
          ((Real.sin 2 / 4) • ![(4 : ℝ), 0, 0]) := by
    rw [SO3log]
    show (if norm3 ((Real.sin 2 / 4) • ![(4 : ℝ), 0, 0]) = 0 then (0 : Vec3)
      else (2 * atan2p (norm3 ((Real.sin 2 / 4) • ![(4 : ℝ), 0, 0])) (Real.cos 2)
            / norm3 ((Real.sin 2 / 4) • ![(4 : ℝ), 0, 0])) •
          ((Real.sin 2 / 4) • ![(4 : ℝ), 0, 0]))
      = (2 * atan2p (Real.sin 2) (Real.cos 2) / Real.sin 2) •
          ((Real.sin 2 / 4) • ![(4 : ℝ), 0, 0])
    rw [if_neg (by rw [hvn]; exact ne_of_gt hs2), hvn]
  constructor
  · have hstep : logd (expd ![0, 0, 0, (4 : ℝ), 0, 0]) 3
        = SO3log (SO3exp ![(4 : ℝ), 0, 0]) 0 := by
      show SO3log (SO3exp (tail3 ![0, 0, 0, (4 : ℝ), 0, 0])) 0
        = SO3log (SO3exp ![(4 : ℝ), 0, 0]) 0
      rw [ht]
    rw [hstep, hexp, hlog0, hwrap]
    simp only [Pi.smul_apply, smul_eq_mul, Matrix.cons_val_zero]
    field_simp
    ring
  · intro h
    have := Real.pi_pos
    linarith

/-- C4 amended: for every 6-vector `v` the translation head of
`logd(expd(v))` equals the head of `v`, and whenever the rotation part
`tail<3>(v)` has norm at most `π` — the principal domain of the SO(3)
logarithm — the round trip is exact: `logd(expd(v)) = v`.  Beyond `π`
the rotation logarithm wraps to the principal vector (see the
counterexample at norm `2π` and the wrapping value at norm `4`). -/
theorem logd_expd_round_trip :
    ∀ v : Vec6, head3 (logd (expd v)) = head3 v
      ∧ (norm3 (tail3 v) ≤ Real.pi → logd (expd v) = v) := by
  intro v
  constructor
  · exact head3_vec6 _ _
  · intro h
    calc logd (expd v) = vec6 (head3 v) (SO3log (SO3exp (tail3 v))) := rfl
      _ = vec6 (head3 v) (tail3 v) := by rw [SO3log_SO3exp _ h]
      _ = v := vec6_head_tail v

/-- C4 witness: the amended round trip applied at the concrete 6-vector
`(1,2,3,1,0,0)`, whose rotation part has norm `1 ≤ π`. -/
theorem logd_expd_round_trip_witness :
    norm3 (tail3 ![1, 2, 3, 1, 0, 0]) ≤ Real.pi
      ∧ logd (expd ![1, 2, 3, 1, 0, 0]) = ![1, 2, 3, 1, 0, 0] := by
  have ht : tail3 ![(1 : ℝ), 2, 3, 1, 0, 0] = ![1, 0, 0] := by
    funext i; fin_cases i <;> rfl
  have hle : norm3 (tail3 ![(1 : ℝ), 2, 3, 1, 0, 0]) ≤ Real.pi := by
    rw [ht, norm3_of_single 1 (by norm_num)]
    linarith [Real.pi_gt_three]
  exact ⟨hle, (logd_expd_round_trip ![1, 2, 3, 1, 0, 0]).2 hle⟩

/-- C9 counterexample: the `SE3` value with rotation quaternion
`(-1, 0, 0, 0)` (the nonprincipal unit-quaternion representative of the
identity rotation) and zero translation is not reproduced by
`expd ∘ logd`, which returns the principal representative `(1, 0, 0, 0)`:
the equality `expd(logd(T)) == T` fails on the stored data. -/
theorem expd_logd_fails_at_neg_identity :
    expd (logd ((⟨-1, 0⟩ : Quat), (0 : Vec3))) ≠ ((⟨-1, 0⟩ : Quat), (0 : Vec3)) := by
  intro h
  have hlog : SO3log (⟨-1, 0⟩ : Quat) = 0 := SO3log_of_vec_zero _ rfl
  have hL : (expd (logd ((⟨-1, 0⟩ : Quat), (0 : Vec3)))).1 = ⟨1, 0⟩ := by
    calc (expd (logd ((⟨-1, 0⟩ : Quat), (0 : Vec3)))).1
        = SO3exp (tail3 (vec6 (0 : Vec3) (SO3log ⟨-1, 0⟩))) := rfl
      _ = SO3exp (SO3log ⟨-1, 0⟩) := by rw [tail3_vec6]
      _ = ⟨1, 0⟩ := by rw [hlog, SO3exp_zero]
  have hw : (expd (logd ((⟨-1, 0⟩ : Quat), (0 : Vec3)))).1.w
      = ((⟨-1, 0⟩ : Quat), (0 : Vec3)).1.w := by rw [h]
  rw [hL] at hw
  norm_num at hw

/-- C9 amended: for every unit rotation quaternion `q` and translation `t`,
`expd(logd((q,t)))` recovers the translation exactly and recovers the
rotation as a rigid transform (equal rotation matrices), with no
restriction on the rotation angle; on the stored quaternion data the pair
is recovered exactly whenever `q.w ≥ 0` (the principal hemisphere), while
for `q.w < 0` the principal-branch logarithm wraps and the returned
rotation quaternion is `−q`, the other representative of the same
rotation. -/
theorem expd_logd_round_trip :
    ∀ (q : Quat) (t : Vec3), unitQuat q →
      (expd (logd (q, t))).2 = t
        ∧ quatToMatrix (expd (logd (q, t))).1 = quatToMatrix q
        ∧ (0 ≤ q.w → expd (logd (q, t)) = (q, t))
        ∧ (q.w < 0 → (expd (logd (q, t))).1 = ⟨-q.w, -q.v⟩) := by
  intro q t hu
  have e2 : (expd (logd (q, t))).2 = t := head3_vec6 _ _
  have e1 : (expd (logd (q, t))).1 = SO3exp (SO3log q) := by
    calc (expd (logd (q, t))).1 = SO3exp (tail3 (vec6 t (SO3log q))) := rfl
      _ = SO3exp (SO3log q) := by rw [tail3_vec6]
  refine ⟨e2, ?_, ?_, ?_⟩
  · rcases lt_or_le q.w 0 with hw | hw
    · rw [e1, SO3exp_SO3log_of_neg q hu hw, quatToMatrix_neg]
    · rw [e1, SO3exp_SO3log_of_nonneg q hu hw]
  · intro hw
    calc expd (logd (q, t))
        = ((expd (logd (q, t))).1, (expd (logd (q, t))).2) := rfl
      _ = (q, t) := by rw [e1, e2, SO3exp_SO3log_of_nonneg q hu hw]
  · intro hw
    rw [e1, SO3exp_SO3log_of_neg q hu hw]

/-- C9 witness: the round trip applied at the concrete unit quaternion
`(0,(1,0,0))` (a half-turn about the x-axis, rotation angle `π`, on the
boundary of the principal hemisphere `w ≥ 0`) and translation `(4,5,6)`;
the stored pair is recovered exactly. -/
theorem expd_logd_round_trip_witness :
    unitQuat ⟨0, ![1, 0, 0]⟩
      ∧ expd (logd ((⟨0, ![1, 0, 0]⟩ : Quat), ![4, 5, 6])) = (⟨0, ![1, 0, 0]⟩, ![4, 5, 6]) := by
  have hu : unitQuat ⟨0, ![1, 0, 0]⟩ := by
    rw [unitQuat]
    norm_num [squaredNorm3]
  exact ⟨hu, (expd_logd_round_trip ⟨0, ![1, 0, 0]⟩ ![4, 5, 6] hu).2.2.1 (le_refl 0)⟩

/-- C10 witness: the boundary theorem applied at the concrete input
`(1e-10, 0, 0)`, whose norm is exactly the Sophus epsilon. -/
theorem jacobians_identity_at_epsilon_boundary_witness :
    rightJacobianSO3 ![(1e-10 : ℝ), 0, 0] = 1
      ∧ rightJacobianInvSO3 ![(1e-10 : ℝ), 0, 0] = 1
      ∧ leftJacobianSO3 ![(1e-10 : ℝ), 0, 0] = 1
      ∧ leftJacobianInvSO3 ![(1e-10 : ℝ), 0, 0] = 1 := by
  apply jacobians_identity_at_epsilon_boundary
  rw [norm3_of_single _ (by norm_num)]
  simp [sophusEps]

end SophusModel

end
